import Mathlib

/-!
# Verification of `MultiBatch` (firestore-multibatch-typescript)

Shallow embedding of `src/multiBatch.ts`.  The class `MultiBatch` wraps a
Firestore connection and a list of `WriteBatch` handles; each `WriteBatch`
is modelled by the list of write operations staged on it (in staging
order), and the Firestore connection's only consumed capability,
`db.batch()`, returns a fresh empty handle, modelled as `[]`.

JavaScript `number` values used as limits are modelled as `Int` (all
inputs the claims quantify over are integers; the clamp and the
`operations < limit` comparison are translated verbatim).  Document
references, document data and set-options are opaque payloads to this
layer and are modelled as `Nat`.

The external outcome of committing one underlying handle is modelled by a
function `o : List Op → Except E (List R)` supplied to `commit` (`E` the
driver's rejection reason, `List R` the per-operation write results);
`Promise.all` over the handle commits is `promiseAll`, which fails with
the first failing handle's reason and succeeds with the collected result
lists otherwise.
-/

set_option linter.unusedVariables false

namespace FirestoreMultiBatch

/-- One write operation staged on an underlying `WriteBatch`.  The
two-argument call form `batch.set(ref, data)` and the three-argument form
`batch.set(ref, data, options)` are distinct constructors, so that
forwarding no options value is distinguishable from forwarding any
options value (including an empty options object). -/
inductive Op where
  | del (ref : Nat)
  | set (ref data : Nat)
  | setWith (ref data opts : Nat)
  | update (ref data : Nat)
deriving DecidableEq

/-- `const BATCH_LIMIT = 500` (Firestore's hard cap on batch operations). -/
def BATCH_LIMIT : Int := 500

/-- The mutable state of a `MultiBatch` instance: the clamped per-handle
`limit`, the list `batches` of underlying handles (each the list of
operations staged on it), and the counter `operations` of operations
placed in the current (last) handle.  The `db` field of the source holds
the external connection and has no state of its own here: `db.batch()`
always yields a fresh empty handle `[]`. -/
structure MultiBatch where
  limit : Int
  batches : List (List Op)
  operations : Nat
deriving DecidableEq

/-- The `MultiBatch` constructor:
`this.limit = limit < BATCH_LIMIT ? limit : BATCH_LIMIT;
 this.batches = [db.batch()]; this.operations = 0;`. -/
def newMultiBatch (limit : Int) : MultiBatch :=
  { limit := if limit < BATCH_LIMIT then limit else BATCH_LIMIT
    batches := [[]]
    operations := 0 }

/-- Append an operation to the last handle of the list (the effect of
calling a staging method on the `WriteBatch` object that `getBatch`
returned, which is always the last element of `batches`). -/
def appendLast (op : Op) : List (List Op) → List (List Op)
  | [] => []
  | [b] => [b ++ [op]]
  | b :: c :: bs => b :: appendLast op (c :: bs)

/-- `getBatch()`: if `this.operations < this.limit` the state is
unchanged and the returned handle is the last of `batches`; otherwise a
fresh handle is pushed and `operations` is reset to 0 (the returned
handle is again the last of `batches`). -/
def MultiBatch.getBatch (st : MultiBatch) : MultiBatch :=
  if (st.operations : Int) < st.limit then st
  else { st with batches := st.batches ++ [[]], operations := 0 }

/-- The common body of the three mutators:
`this.getBatch().<op>(...); this.operations++;` — call `getBatch`, stage
the operation on the returned (last) handle, increment `operations`. -/
def MultiBatch.stage (st : MultiBatch) (op : Op) : MultiBatch :=
  let st1 := st.getBatch
  { st1 with batches := appendLast op st1.batches
             operations := st1.operations + 1 }

/-- `delete(ref)`: `this.getBatch().delete(ref); this.operations++;`
(the fluent `return this` is the updated state). -/
def MultiBatch.delete (st : MultiBatch) (ref : Nat) : MultiBatch :=
  st.stage (Op.del ref)

/-- `set(ref, data, options?)`: when `options == undefined` the
two-argument underlying form is used, otherwise the three-argument form;
then `this.operations++`. -/
def MultiBatch.set (st : MultiBatch) (ref data : Nat) (options : Option Nat) :
    MultiBatch :=
  match options with
  | none => st.stage (Op.set ref data)
  | some o => st.stage (Op.setWith ref data o)

/-- `update(ref, data)`: `this.getBatch().update(ref, data);
this.operations++;`. -/
def MultiBatch.update (st : MultiBatch) (ref data : Nat) : MultiBatch :=
  st.stage (Op.update ref data)

/-- `Promise.all` over a list of already-settled outcomes: an error if
any element is an error (the reason being the first error in the list),
else the list of all results. -/
def promiseAll {E R : Type} : List (Except E R) → Except E (List R)
  | [] => Except.ok []
  | x :: xs =>
    match x with
    | Except.error e => Except.error e
    | Except.ok r =>
      match promiseAll xs with
      | Except.error e => Except.error e
      | Except.ok rs => Except.ok (r :: rs)

/-- `commit()`:
`await Promise.all(this.batches.map((batch) => batch.commit()));
 this.batches = [db.batch()]; this.operations = 0;`.
The external world is the function `o` giving each handle's commit
outcome.  If `Promise.all` rejects, the `await` throws: the promise
returned by `commit` rejects with that reason and the two reset lines
never run, so the state is returned unchanged.  On success the function
falls through to the resets and resolves with `undefined` (`none`),
although its declared type `Promise<void | Firestore.WriteResult[][]>`
would also admit the collected result lists (`some`). -/
def MultiBatch.commit {E R : Type} (o : List Op → Except E (List R))
    (st : MultiBatch) : Except E (Option (List (List R))) × MultiBatch :=
  match promiseAll (st.batches.map o) with
  | Except.error e => (Except.error e, st)
  | Except.ok _results =>
    (Except.ok none, { st with batches := [[]], operations := 0 })

/-- A caller's enqueue request: one `delete`, `set` (with optional
options) or `update` call. -/
inductive Req where
  | rdel (ref : Nat)
  | rset (ref data : Nat) (opts : Option Nat)
  | rupd (ref data : Nat)
deriving DecidableEq

/-- Dispatch one enqueue request to the corresponding mutator. -/
def applyReq (st : MultiBatch) : Req → MultiBatch
  | Req.rdel ref => st.delete ref
  | Req.rset ref data opts => st.set ref data opts
  | Req.rupd ref data => st.update ref data

/-- Run a sequence of enqueue requests left to right. -/
def run (st : MultiBatch) (reqs : List Req) : MultiBatch :=
  reqs.foldl applyReq st

/-- The operation a request stages on the underlying handle. -/
def toOp : Req → Op
  | Req.rdel ref => Op.del ref
  | Req.rset ref data none => Op.set ref data
  | Req.rset ref data (some o) => Op.setWith ref data o
  | Req.rupd ref data => Op.update ref data

/-- The flat list of operations a request sequence stages, in order. -/
def opsOf (reqs : List Req) : List Op :=
  reqs.map toOp

/-- Split a list of operations into consecutive chunks of `L` (the last
chunk possibly shorter); `[]` yields no chunk.  For a positive limit `L`
this is exactly how `MultiBatch` distributes a run of staged operations
over its handles. -/
def chunks (L : Nat) : List Op → List (List Op)
  | [] => []
  | a :: rest => (a :: rest.take (L - 1)) :: chunks L (rest.drop (L - 1))
termination_by l => l.length
decreasing_by
  simp only [List.length_drop, List.length_cons]
  omega

/-- `true` iff an outcome is a fulfilled (non-rejected) promise. -/
def isSuccess {E R : Type} : Except E R → Bool
  | Except.ok _ => true
  | Except.error _ => false

/-- The state an aggregator with positive limit `L` reaches after staging
the flat operation list `ops` from a fresh construction: the handles are
the `L`-chunks of `ops` (one empty handle when `ops = []`), and the
pending counter is `(ops.length - 1) % L + 1` (0 when `ops = []`). -/
def modelState (L : Nat) (ops : List Op) : MultiBatch :=
  { limit := (L : Int)
    batches := if ops = [] then [[]] else chunks L ops
    operations := if ops = [] then 0 else (ops.length - 1) % L + 1 }

/-- The last operation staged anywhere in the aggregator: the last
element of the last handle. -/
def lastStaged (st : MultiBatch) : Option Op :=
  st.batches.getLast?.bind List.getLast?

/-- The spec's data-model invariant for a positive limit `L`: `batches`
is non-empty and `0 ≤ operations ≤ L` (the lower bound is carried by the
type: `operations` counts calls). -/
def MBInv (L : Nat) (st : MultiBatch) : Prop :=
  st.batches ≠ [] ∧ st.operations ≤ L

/-- An external world in which every handle commit succeeds with an
empty write-result list (for witnesses). -/
def allOk : List Op → Except Nat (List Nat) :=
  fun _ => Except.ok []

/-- An external world in which every handle commit succeeds with a
non-empty write-result list (for witnesses). -/
def allOkRes : List Op → Except Nat (List Nat) :=
  fun _ => Except.ok [7]

/-! ## Lemmas about `appendLast` -/

theorem appendLast_cons_cons (op : Op) (b c : List Op) (bs : List (List Op)) :
    appendLast op (b :: c :: bs) = b :: appendLast op (c :: bs) := rfl

theorem appendLast_cons_of_ne_nil (op : Op) (b : List Op) (l : List (List Op))
    (h : l ≠ []) : appendLast op (b :: l) = b :: appendLast op l := by
  cases l with
  | nil => exact absurd rfl h
  | cons c cs => rfl

theorem appendLast_append_singleton (op : Op) (l : List (List Op)) (x : List Op) :
    appendLast op (l ++ [x]) = l ++ [x ++ [op]] := by
  induction l with
  | nil => rfl
  | cons b bs ih =>
    rw [List.cons_append, appendLast_cons_of_ne_nil op b (bs ++ [x]) (by simp),
      ih, List.cons_append]

theorem appendLast_length (op : Op) (l : List (List Op)) :
    (appendLast op l).length = l.length := by
  induction l with
  | nil => rfl
  | cons b bs ih =>
    cases bs with
    | nil => rfl
    | cons c cs => rw [appendLast_cons_cons]; simpa using ih

theorem appendLast_ne_nil (op : Op) (l : List (List Op)) (h : l ≠ []) :
    appendLast op l ≠ [] := by
  have : (appendLast op l).length = l.length := appendLast_length op l
  intro hc
  rw [hc] at this
  exact h (List.eq_nil_of_length_eq_zero this.symm)

theorem appendLast_getD_of_lt (op : Op) (l : List (List Op)) (i : Nat)
    (h : i + 1 < l.length) : (appendLast op l).getD i [] = l.getD i [] := by
  induction l generalizing i with
  | nil => rfl
  | cons b bs ih =>
    cases bs with
    | nil => simp at h
    | cons c cs =>
      rw [appendLast_cons_cons]
      cases i with
      | zero => rfl
      | succ j =>
        have : j + 1 < (c :: cs).length := by simpa using h
        simpa using ih j this

theorem appendLast_getLast? (op : Op) (l : List (List Op)) :
    (appendLast op l).getLast? = l.getLast?.map (fun b => b ++ [op]) := by
  induction l with
  | nil => rfl
  | cons b bs ih =>
    cases bs with
    | nil => rfl
    | cons c cs =>
      rw [appendLast_cons_cons]
      obtain ⟨z, zs, hz⟩ : ∃ z zs, appendLast op (c :: cs) = z :: zs := by
        cases cs <;> exact ⟨_, _, rfl⟩
      rw [hz, List.getLast?_cons_cons, ← hz, ih, List.getLast?_cons_cons]

/-! ## Lemmas about `chunks` -/

theorem chunks_nil (L : Nat) : chunks L [] = [] := by
  rw [chunks]

theorem chunks_cons (L : Nat) (a : Op) (rest : List Op) :
    chunks L (a :: rest)
      = (a :: rest.take (L - 1)) :: chunks L (rest.drop (L - 1)) := by
  rw [chunks]

theorem chunks_singleton (L : Nat) (op : Op) : chunks L [op] = [[op]] := by
  rw [chunks_cons]
  simp [chunks_nil]

theorem chunks_ne_nil (L : Nat) (ops : List Op) (h : ops ≠ []) :
    chunks L ops ≠ [] := by
  cases ops with
  | nil => exact absurd rfl h
  | cons a rest => rw [chunks_cons]; simp

/-- `(m + 1) % L` in terms of `m % L`. -/
theorem succ_mod (m L : Nat) (hL : 0 < L) :
    (m + 1) % L = if m % L + 1 = L then 0 else m % L + 1 := by
  have h1 : (m + 1) % L = (m % L + 1) % L := by
    conv_lhs => rw [← Nat.mod_add_div m L]
    rw [show m % L + L * (m / L) + 1 = m % L + 1 + L * (m / L) by omega]
    rw [Nat.add_mul_mod_self_left]
  have h2 : m % L < L := Nat.mod_lt m hL
  by_cases h : m % L + 1 = L
  · rw [if_pos h, h1, h, Nat.mod_self]
  · rw [if_neg h, h1, Nat.mod_eq_of_lt (by omega)]

/-- Appending one operation to a run whose length is a multiple of `L`
opens a new chunk. -/
theorem chunks_append_full (L : Nat) (hL : 0 < L) :
    ∀ (n : Nat) (ops : List Op), ops.length ≤ n → ops.length % L = 0 →
      ∀ op : Op, chunks L (ops ++ [op]) = chunks L ops ++ [[op]] := by
  intro n
  induction n with
  | zero =>
    intro ops hn _ op
    have hnil : ops = [] := List.eq_nil_of_length_eq_zero (Nat.le_zero.mp hn)
    subst hnil
    simp [chunks_nil, chunks_singleton]
  | succ n ih =>
    intro ops hn hmod op
    match ops with
    | [] => simp [chunks_nil, chunks_singleton]
    | a :: rest =>
      have hpos : 0 < (a :: rest).length := by simp
      have hge : L ≤ rest.length + 1 := by
        by_contra hc
        push_neg at hc
        have := Nat.mod_eq_of_lt (show rest.length + 1 < L by omega)
        simp only [List.length_cons] at hmod
        omega
      have htk : (rest ++ [op]).take (L - 1) = rest.take (L - 1) :=
        List.take_append_of_le_length (by omega)
      have hdp : (rest ++ [op]).drop (L - 1) = rest.drop (L - 1) ++ [op] :=
        List.drop_append_of_le_length (by omega)
      have hmod' : (rest.drop (L - 1)).length % L = 0 := by
        rw [List.length_drop]
        have : rest.length - (L - 1) = rest.length + 1 - L * 1 := by omega
        rw [this, Nat.sub_mul_mod (by omega)]
        simpa using hmod
      rw [List.cons_append, chunks_cons, chunks_cons, htk, hdp,
        ih (rest.drop (L - 1)) (by simp at hn ⊢; omega) hmod' op,
        List.cons_append]

/-- Appending one operation to a run whose length is not a multiple of
`L` extends the last chunk. -/
theorem chunks_append_partial (L : Nat) (hL : 0 < L) :
    ∀ (n : Nat) (ops : List Op), ops.length ≤ n → ops.length % L ≠ 0 →
      ∀ op : Op, chunks L (ops ++ [op]) = appendLast op (chunks L ops) := by
  intro n
  induction n with
  | zero =>
    intro ops hn hmod op
    have hnil : ops = [] := List.eq_nil_of_length_eq_zero (Nat.le_zero.mp hn)
    subst hnil
    simp at hmod
  | succ n ih =>
    intro ops hn hmod op
    match ops with
    | [] => simp at hmod
    | a :: rest =>
      by_cases hsmall : rest.length < L - 1
      · have htk : (rest ++ [op]).take (L - 1) = rest ++ [op] :=
          List.take_of_length_le (by simp; omega)
        have hdp : (rest ++ [op]).drop (L - 1) = [] :=
          List.drop_eq_nil_of_le (by simp; omega)
        have htk2 : rest.take (L - 1) = rest := List.take_of_length_le (by omega)
        have hdp2 : rest.drop (L - 1) = [] := List.drop_eq_nil_of_le (by omega)
        rw [List.cons_append, chunks_cons, chunks_cons, htk, hdp, htk2, hdp2,
          chunks_nil]
        rfl
      · push_neg at hsmall
        have hgt : L < rest.length + 1 := by
          rcases Nat.lt_or_ge L (rest.length + 1) with h | h
          · exact h
          · have heq : rest.length + 1 = L := by omega
            simp only [List.length_cons] at hmod
            rw [heq, Nat.mod_self] at hmod
            exact absurd rfl hmod
        have htk : (rest ++ [op]).take (L - 1) = rest.take (L - 1) :=
          List.take_append_of_le_length (by omega)
        have hdp : (rest ++ [op]).drop (L - 1) = rest.drop (L - 1) ++ [op] :=
          List.drop_append_of_le_length (by omega)
        have hne : rest.drop (L - 1) ≠ [] := by
          intro hc
          have := congrArg List.length hc
          simp only [List.length_drop, List.length_nil] at this
          omega
        have hmod' : (rest.drop (L - 1)).length % L ≠ 0 := by
          rw [List.length_drop]
          have : rest.length - (L - 1) = rest.length + 1 - L * 1 := by omega
          rw [this, Nat.sub_mul_mod (by omega)]
          simpa using hmod
        rw [List.cons_append, chunks_cons, chunks_cons, htk, hdp,
          ih (rest.drop (L - 1)) (by simp at hn ⊢; omega) hmod' op,
          appendLast_cons_of_ne_nil op _ _ (chunks_ne_nil L _ hne)]

theorem chunks_length (L : Nat) (hL : 0 < L) :
    ∀ (n : Nat) (ops : List Op), ops.length ≤ n →
      (chunks L ops).length = (ops.length + L - 1) / L := by
  intro n
  induction n with
  | zero =>
    intro ops hn
    have hnil : ops = [] := List.eq_nil_of_length_eq_zero (Nat.le_zero.mp hn)
    subst hnil
    rw [chunks_nil]
    simp only [List.length_nil, List.length, Nat.zero_add]
    exact (Nat.div_eq_of_lt (by omega)).symm
  | succ n ih =>
    intro ops hn
    match ops with
    | [] =>
      rw [chunks_nil]
      simp only [List.length_nil, List.length, Nat.zero_add]
      exact (Nat.div_eq_of_lt (by omega)).symm
    | a :: rest =>
      rw [chunks_cons]
      simp only [List.length_cons]
      rw [ih (rest.drop (L - 1)) (by simp only [List.length_drop]; simp only [List.length_cons] at hn; omega)]
      rw [List.length_drop]
      by_cases hsmall : rest.length ≤ L - 1
      · have h0 : rest.length - (L - 1) = 0 := by omega
        rw [h0]
        have hlhs : (0 + L - 1) / L = 0 := Nat.div_eq_of_lt (by omega)
        have hrhs : (rest.length + 1 + L - 1) / L = 1 := by
          apply Nat.div_eq_of_lt_le (by omega) (by omega)
        omega
      · push_neg at hsmall
        have h1 : rest.length - (L - 1) + L - 1 = rest.length := by omega
        have h2 : rest.length + 1 + L - 1 = rest.length + L := by omega
        rw [h1, h2, Nat.add_div_right _ hL]

theorem chunks_sizes (L : Nat) (hL : 0 < L) :
    ∀ (n : Nat) (ops : List Op), ops.length ≤ n →
      ∀ b ∈ chunks L ops, b.length ≤ L := by
  intro n
  induction n with
  | zero =>
    intro ops hn b hb
    have hnil : ops = [] := List.eq_nil_of_length_eq_zero (Nat.le_zero.mp hn)
    subst hnil
    rw [chunks_nil] at hb
    simp at hb
  | succ n ih =>
    intro ops hn b hb
    match ops with
    | [] => rw [chunks_nil] at hb; simp at hb
    | a :: rest =>
      rw [chunks_cons] at hb
      rcases List.mem_cons.mp hb with h | h
      · subst h
        have := List.length_take_le (L - 1) rest
        simp only [List.length_cons]
        omega
      · exact ih (rest.drop (L - 1)) (by simp at hn ⊢; omega) b h

theorem getD_take (l : List Op) :
    ∀ (n k : Nat), k < n → ∀ d : Op, (l.take n).getD k d = l.getD k d := by
  induction l with
  | nil => intro n k h d; simp
  | cons a rest ih =>
    intro n k h d
    cases n with
    | zero => omega
    | succ m =>
      cases k with
      | zero => rfl
      | succ j =>
        show (rest.take m).getD j d = rest.getD j d
        exact ih m j (by omega) d

theorem getD_drop (l : List Op) :
    ∀ (n k : Nat) (d : Op), (l.drop n).getD k d = l.getD (n + k) d := by
  induction l with
  | nil => intro n k d; simp
  | cons a rest ih =>
    intro n k d
    cases n with
    | zero => simp
    | succ m =>
      rw [List.drop_succ_cons, ih m k d]
      have h1 : m + 1 + k = m + k + 1 := by omega
      rw [h1]
      rfl

/-- The operation with flat index `k` sits in chunk `k / L` at offset
`k % L`. -/
theorem chunks_getD (L : Nat) (hL : 0 < L) :
    ∀ (n : Nat) (ops : List Op), ops.length ≤ n → ∀ k, k < ops.length → ∀ d : Op,
      ((chunks L ops).getD (k / L) []).getD (k % L) d = ops.getD k d := by
  intro n
  induction n with
  | zero => intro ops hn k hk d; omega
  | succ n ih =>
    intro ops hn k hk d
    match ops with
    | [] => simp at hk
    | a :: rest =>
      rw [chunks_cons]
      by_cases hklt : k < L
      · have hdiv : k / L = 0 := Nat.div_eq_of_lt hklt
        have hmod : k % L = k := Nat.mod_eq_of_lt hklt
        rw [hdiv, hmod]
        show ((a :: rest.take (L - 1))).getD k d = (a :: rest).getD k d
        cases k with
        | zero => rfl
        | succ j =>
          show (rest.take (L - 1)).getD j d = rest.getD j d
          exact getD_take rest (L - 1) j (by omega) d
      · push_neg at hklt
        obtain ⟨j, rfl⟩ : ∃ j, k = j + L := ⟨k - L, by omega⟩
        have hdiv : (j + L) / L = j / L + 1 := Nat.add_div_right j hL
        have hmod : (j + L) % L = j % L := Nat.add_mod_right j L
        rw [hdiv, hmod]
        show ((chunks L (rest.drop (L - 1))).getD (j / L) []).getD (j % L) d
          = (a :: rest).getD (j + L) d
        rw [ih (rest.drop (L - 1))
          (by simp only [List.length_drop]; simp only [List.length_cons] at hn; omega)
          j
          (by simp only [List.length_drop]; simp only [List.length_cons] at hk; omega)
          d]
        rw [getD_drop]
        have h1 : L - 1 + j = j + L - 1 := by omega
        have h2 : j + L = j + L - 1 + 1 := by omega
        rw [h1, h2]
        rfl

/-! ## The run of an enqueue sequence from a fresh aggregator -/

theorem run_append (st : MultiBatch) (reqs : List Req) (r : Req) :
    run st (reqs ++ [r]) = applyReq (run st reqs) r := by
  simp [run, List.foldl_append]

/-- Every mutator stages the corresponding operation through the common
`getBatch`-then-increment path. -/
theorem applyReq_eq_stage (st : MultiBatch) (r : Req) :
    applyReq st r = st.stage (toOp r) := by
  cases r with
  | rdel ref => rfl
  | rset ref data opts => cases opts <;> rfl
  | rupd ref data => rfl

/-- `stage` on an explicit record: extend the last handle when the
counter is below the limit, otherwise open a fresh handle. -/
theorem stage_explicit (lim : Int) (bs : List (List Op)) (p : Nat) (op : Op) :
    MultiBatch.stage ⟨lim, bs, p⟩ op
      = if (p : Int) < lim
        then ⟨lim, appendLast op bs, p + 1⟩
        else ⟨lim, appendLast op (bs ++ [[]]), 1⟩ := by
  rw [MultiBatch.stage, MultiBatch.getBatch]
  by_cases h : (p : Int) < lim
  · rw [if_pos h, if_pos h]
  · rw [if_neg h, if_neg h]

/-- One staging step from the model state of `ops` yields the model
state of `ops ++ [op]` (positive limit). -/
theorem stage_modelState (L : Nat) (hL : 0 < L) (ops : List Op) (op : Op) :
    (modelState L ops).stage op = modelState L (ops ++ [op]) := by
  match ops with
  | [] =>
    rw [show modelState L [] = ⟨(L : Int), [[]], 0⟩ by rw [modelState]; rfl]
    rw [stage_explicit]
    rw [if_pos (by exact_mod_cast hL), List.nil_append]
    rw [show modelState L [op] = ⟨(L : Int), [[op]], 1⟩ by
      rw [modelState, if_neg (by simp), if_neg (by simp), chunks_singleton]
      simp]
    simp [appendLast]
  | a :: rest =>
    have hainz : ¬(a :: rest = ([] : List Op)) := by simp
    have happ : ¬((a :: rest) ++ [op] = ([] : List Op)) := by simp
    have hms : modelState L (a :: rest)
        = ⟨(L : Int), chunks L (a :: rest), rest.length % L + 1⟩ := by
      rw [modelState, if_neg hainz, if_neg hainz]
      simp
    have hms2 : modelState L ((a :: rest) ++ [op])
        = ⟨(L : Int), chunks L ((a :: rest) ++ [op]), (rest.length + 1) % L + 1⟩ := by
      rw [modelState, if_neg happ, if_neg happ]
      have hlen : ((a :: rest) ++ [op]).length - 1 = rest.length + 1 := by
        simp
      rw [hlen]
    have hqlt : rest.length % L < L := Nat.mod_lt _ hL
    rw [hms, hms2, stage_explicit]
    by_cases hfull : rest.length % L + 1 = L
    · rw [if_neg (by exact_mod_cast (show ¬(rest.length % L + 1 < L) by omega))]
      have hmod0 : (rest.length + 1) % L = 0 := by
        have hs := succ_mod rest.length L hL
        rwa [if_pos hfull] at hs
      rw [appendLast_append_singleton, List.nil_append]
      rw [← chunks_append_full L hL (rest.length + 1) (a :: rest) (by simp)
        (by simpa using hmod0) op]
      rw [hmod0]
    · rw [if_pos (by exact_mod_cast (show rest.length % L + 1 < L by omega))]
      have hmodN : (rest.length + 1) % L = rest.length % L + 1 := by
        have hs := succ_mod rest.length L hL
        rwa [if_neg hfull] at hs
      rw [← chunks_append_partial L hL (rest.length + 1) (a :: rest) (by simp)
        (by simp only [List.length_cons]; omega) op]
      rw [hmodN]

/-- The fresh construction with desired limit `L ≤ 500` stores `L`
unchanged and is the model state of the empty run. -/
theorem newMultiBatch_eq_modelState (L : Nat) (hcap : (L : Int) ≤ BATCH_LIMIT) :
    newMultiBatch (L : Int) = modelState L [] := by
  rw [newMultiBatch, modelState]
  rw [if_pos rfl, if_pos rfl]
  by_cases h : (L : Int) < BATCH_LIMIT
  · rw [if_pos h]
  · have h500 : (L : Int) = BATCH_LIMIT := le_antisymm hcap (not_lt.mp h)
    rw [if_neg h, h500]

/-- Running any enqueue sequence from a fresh aggregator with positive
limit `L` lands in the model state of its staged operations. -/
theorem run_modelState (L : Nat) (hL : 0 < L) (reqs : List Req) :
    run (modelState L []) reqs = modelState L (opsOf reqs) := by
  induction reqs using List.reverseRecOn with
  | nil => rfl
  | append_singleton rs r ih =>
    rw [run_append, ih]
    rw [applyReq_eq_stage]
    simp only [opsOf, List.map_append, List.map_cons, List.map_nil]
    exact stage_modelState L hL (List.map toOp rs) (toOp r)

/-! ## Lemmas about `promiseAll` and `commit` -/

theorem promiseAll_ok_of_all {E R : Type} (l : List (Except E R))
    (h : ∀ x ∈ l, isSuccess x = true) :
    ∃ rs, promiseAll l = Except.ok rs := by
  induction l with
  | nil => exact ⟨[], rfl⟩
  | cons x xs ih =>
    match x with
    | Except.error e =>
      have hx := h _ (List.mem_cons_self _ _)
      simp [isSuccess] at hx
    | Except.ok r =>
      obtain ⟨rs, hrs⟩ := ih (fun y hy => h y (List.mem_cons_of_mem _ hy))
      exact ⟨r :: rs, by rw [promiseAll, hrs]⟩

theorem promiseAll_error_of_mem {E R : Type} (l : List (Except E R))
    (h : ∃ x ∈ l, isSuccess x = false) :
    ∃ e, promiseAll l = Except.error e := by
  induction l with
  | nil => simp at h
  | cons x xs ih =>
    match x with
    | Except.error e => exact ⟨e, rfl⟩
    | Except.ok r =>
      have hxs : ∃ y ∈ xs, isSuccess y = false := by
        obtain ⟨y, hy, hys⟩ := h
        rcases List.mem_cons.mp hy with rfl | hm
        · simp [isSuccess] at hys
        · exact ⟨y, hm, hys⟩
      obtain ⟨e, he⟩ := ih hxs
      exact ⟨e, by rw [promiseAll, he]⟩

/-- Whatever `getBatch` decides, the staged operation becomes the last
element of the last handle. -/
theorem lastStaged_stage (st : MultiBatch) (h : st.batches ≠ []) (op : Op) :
    lastStaged (st.stage op) = some op := by
  obtain ⟨b, hb⟩ : ∃ b, st.batches.getLast? = some b := by
    cases hx : st.batches.getLast? with
    | none => exact absurd (List.getLast?_eq_none_iff.mp hx) h
    | some b => exact ⟨b, rfl⟩
  rw [MultiBatch.stage, MultiBatch.getBatch]
  by_cases hc : (st.operations : Int) < st.limit
  · rw [if_pos hc]
    show ((appendLast op st.batches).getLast?).bind List.getLast? = some op
    rw [appendLast_getLast?, hb]
    exact List.getLast?_concat b
  · rw [if_neg hc]
    show ((appendLast op (st.batches ++ [[]])).getLast?).bind List.getLast? = some op
    rw [appendLast_append_singleton, List.nil_append, List.getLast?_concat]
    show ([op] : List Op).getLast? = some op
    rfl

/-- `stage` on an arbitrary state, in explicit form (structure eta). -/
theorem stage_eq (st : MultiBatch) (op : Op) :
    st.stage op
      = if (st.operations : Int) < st.limit
        then ⟨st.limit, appendLast op st.batches, st.operations + 1⟩
        else ⟨st.limit, appendLast op (st.batches ++ [[]]), 1⟩ :=
  stage_explicit st.limit st.batches st.operations op

/-- An enqueue never touches any handle that is not the last handle
afterwards: earlier handles are frozen once a later one exists. -/
theorem stage_batches_getD (st : MultiBatch) (op : Op) (i : Nat)
    (hi : i + 1 < (st.stage op).batches.length) :
    (st.stage op).batches.getD i [] = st.batches.getD i [] := by
  rw [stage_eq] at hi ⊢
  by_cases hc : (st.operations : Int) < st.limit
  · rw [if_pos hc] at hi ⊢
    show (appendLast op st.batches).getD i [] = st.batches.getD i []
    apply appendLast_getD_of_lt
    have h2 : i + 1 < (appendLast op st.batches).length := hi
    rwa [appendLast_length] at h2
  · rw [if_neg hc] at hi ⊢
    show (appendLast op (st.batches ++ [[]])).getD i [] = st.batches.getD i []
    rw [appendLast_append_singleton, List.nil_append]
    have h2 : i + 1 < (appendLast op (st.batches ++ [[]])).length := hi
    rw [appendLast_length, List.length_append] at h2
    exact List.getD_append _ _ _ _ (by simpa using h2)

/-- The constructor stores any non-positive desired limit unchanged
(every value below `BATCH_LIMIT` is kept) and initialises normally. -/
theorem newMultiBatch_nonpos (l : Int) (h : l ≤ 0) :
    newMultiBatch l = { limit := l, batches := [[]], operations := 0 } := by
  rw [newMultiBatch, if_pos (by rw [BATCH_LIMIT]; omega)]

/-- With a non-positive limit, every enqueue rolls over: a fresh handle
is pushed, receives the one staged operation, and the counter ends at 1. -/
theorem nonpos_step (st : MultiBatch) (r : Req) (h : st.limit ≤ 0) :
    applyReq st r = ⟨st.limit, st.batches ++ [[toOp r]], 1⟩ := by
  rw [applyReq_eq_stage, stage_eq,
    if_neg (not_lt.mpr (le_trans h (Int.ofNat_nonneg _)))]
  rw [appendLast_append_singleton]
  simp

/-- Running any enqueue sequence from a fresh aggregator with
non-positive limit: the initial handle stays empty and every request
lands alone in its own fresh handle. -/
theorem run_nonpos (l : Int) (hl : l ≤ 0) (reqs : List Req) :
    run (newMultiBatch l) reqs
      = ⟨l, [] :: reqs.map (fun r => [toOp r]), if reqs = [] then 0 else 1⟩ := by
  induction reqs using List.reverseRecOn with
  | nil =>
    rw [show run (newMultiBatch l) [] = newMultiBatch l from rfl,
      newMultiBatch_nonpos l hl]
    simp
  | append_singleton rs r ih =>
    rw [run_append, ih, nonpos_step _ _ hl]
    simp

/-! ## Claims -/

/-- **C1.**  For every positive integer per-handle limit `L` — the
aggregator's `limit` field; since the constructor clamps any desired
limit to at most `BATCH_LIMIT = 500`, the positive limits an aggregator
can hold are exactly `1 ≤ L ≤ 500` — and every sequence of `N` enqueue
operations (any mix of delete/set/update) performed on a freshly
constructed aggregator, the number of handles in `batches` afterwards is
`⌈N / L⌉` (in `Nat`: `(N + L - 1) / L`), with a minimum of 1 when
`N = 0`. -/
theorem handle_count_ceil (L : Nat) (hL : 0 < L) (hcap : (L : Int) ≤ BATCH_LIMIT)
    (reqs : List Req) :
    (run (newMultiBatch (L : Int)) reqs).batches.length
      = if reqs.length = 0 then 1 else (reqs.length + L - 1) / L := by
  rw [newMultiBatch_eq_modelState L hcap, run_modelState L hL reqs, modelState]
  by_cases h : reqs = []
  · subst h
    simp [opsOf]
  · have hops : opsOf reqs ≠ [] := by simpa [opsOf] using h
    have hlen0 : ¬(reqs.length = 0) := by simpa [List.length_eq_zero] using h
    show (if opsOf reqs = [] then [[]] else chunks L (opsOf reqs)).length
      = if reqs.length = 0 then 1 else (reqs.length + L - 1) / L
    rw [if_neg hops, if_neg hlen0,
      chunks_length L hL (opsOf reqs).length (opsOf reqs) le_rfl]
    simp [opsOf]

/-- Witness for C1: limit 2, five `set` calls, `⌈5/2⌉ = 3` handles. -/
theorem handle_count_ceil_witness :
    (run (newMultiBatch ((2 : Nat) : Int)) (List.replicate 5 (Req.rset 0 1 none))).batches.length
      = 3 :=
  (handle_count_ceil 2 (by decide) (by decide)
    (List.replicate 5 (Req.rset 0 1 none))).trans (by decide)

/-- **C2.**  Operations are assigned to handles in strict arrival order:
counting enqueues 0-based (`k` here is the claim's `k − 1`), the `k`-th
staged operation sits in handle `k / L` at offset `k % L`; and a handle
never receives an operation once a later handle has been created — an
enqueue leaves every handle other than the (new) last one untouched. -/
theorem arrival_order (L : Nat) (hL : 0 < L) (hcap : (L : Int) ≤ BATCH_LIMIT)
    (reqs : List Req) (k : Nat) (hk : k < reqs.length) :
    ((run (newMultiBatch (L : Int)) reqs).batches.getD (k / L) []).getD (k % L) (Op.del 0)
        = toOp (reqs.getD k (Req.rdel 0))
    ∧ ∀ (st : MultiBatch) (r : Req) (i : Nat),
        i + 1 < (applyReq st r).batches.length →
        (applyReq st r).batches.getD i [] = st.batches.getD i [] := by
  constructor
  · rw [newMultiBatch_eq_modelState L hcap, run_modelState L hL reqs, modelState]
    have hops : opsOf reqs ≠ [] := by
      have : reqs ≠ [] := by intro hc; subst hc; simp at hk
      simpa [opsOf] using this
    have hklen : k < (opsOf reqs).length := by simpa [opsOf] using hk
    show ((if opsOf reqs = [] then [[]] else chunks L (opsOf reqs)).getD (k / L) []).getD
        (k % L) (Op.del 0) = toOp (reqs.getD k (Req.rdel 0))
    rw [if_neg hops,
      chunks_getD L hL (opsOf reqs).length (opsOf reqs) le_rfl k hklen (Op.del 0),
      List.getD_eq_getElem _ _ hklen, List.getD_eq_getElem _ _ hk]
    simp [opsOf]
  · intro st r i hi
    rw [applyReq_eq_stage] at hi ⊢
    exact stage_batches_getD st (toOp r) i hi

/-- Witness for C2: limit 2, five `set` calls, the fifth operation
(0-based index 4) sits in handle `4 / 2 = 2` at offset `4 % 2 = 0`. -/
theorem arrival_order_witness :
    ((run (newMultiBatch ((2 : Nat) : Int)) (List.replicate 5 (Req.rset 0 1 none))).batches.getD
        (4 / 2) []).getD (4 % 2) (Op.del 0)
      = toOp ((List.replicate 5 (Req.rset 0 1 none)).getD 4 (Req.rdel 0)) :=
  (arrival_order 2 (by decide) (by decide) (List.replicate 5 (Req.rset 0 1 none))
    4 (by decide)).1

/-- **C3.**  For every positive limit `L` an aggregator can hold
(`L ≤ 500`): the invariant "`batches` is non-empty and
`0 ≤ operations ≤ L`" holds after construction, is preserved by every
delete/set/update call on a state with that limit and by every commit
(in particular every successful one), and consequently no handle in a
run from a fresh aggregator ever holds more than `L` operations. -/
theorem pending_invariant (L : Nat) (hL : 0 < L) (hcap : (L : Int) ≤ BATCH_LIMIT) :
    MBInv L (newMultiBatch (L : Int))
    ∧ (∀ (st : MultiBatch) (r : Req),
        st.limit = (L : Int) → MBInv L st → MBInv L (applyReq st r))
    ∧ (∀ (o : List Op → Except Nat (List Nat)) (st : MultiBatch),
        MBInv L st → MBInv L (MultiBatch.commit o st).2)
    ∧ (∀ reqs : List Req,
        ∀ b ∈ (run (newMultiBatch (L : Int)) reqs).batches, b.length ≤ L) := by
  refine ⟨⟨by simp [newMultiBatch], Nat.zero_le _⟩, ?_, ?_, ?_⟩
  · intro st r hlim hinv
    rw [applyReq_eq_stage, stage_eq]
    by_cases hc : (st.operations : Int) < st.limit
    · rw [if_pos hc]
      refine ⟨appendLast_ne_nil _ _ hinv.1, ?_⟩
      rw [hlim] at hc
      exact_mod_cast hc
    · rw [if_neg hc]
      exact ⟨appendLast_ne_nil _ _ (by simp), hL⟩
  · intro o st hinv
    rcases hpe : promiseAll (st.batches.map o) with e | rs
    · rw [MultiBatch.commit, hpe]
      exact hinv
    · rw [MultiBatch.commit, hpe]
      exact ⟨by simp, Nat.zero_le _⟩
  · intro reqs b hb
    rw [newMultiBatch_eq_modelState L hcap, run_modelState L hL reqs, modelState] at hb
    replace hb : b ∈ (if opsOf reqs = [] then [[]] else chunks L (opsOf reqs)) := hb
    by_cases h : opsOf reqs = []
    · rw [if_pos h] at hb
      simp only [List.mem_singleton] at hb
      subst hb
      simp
    · rw [if_neg h] at hb
      exact chunks_sizes L hL (opsOf reqs).length (opsOf reqs) le_rfl b hb

/-- Witness for C3: the invariant holds for the fresh aggregator with
limit 2. -/
theorem pending_invariant_witness : MBInv 2 (newMultiBatch ((2 : Nat) : Int)) :=
  (pending_invariant 2 (by decide) (by decide)).1

/-- **C4, counterexample.**  The claim says construction with desired
limit 0 fails with a `ConfigurationError`.  It does not: the constructor
is total, accepts 0 and stores it unchanged (the clamp
`limit < BATCH_LIMIT ? limit : BATCH_LIMIT` only caps from above), and
initialises `batches`/`operations` normally.  No error path exists in the
constructor. -/
theorem limit_zero_accepted :
    newMultiBatch 0 = { limit := 0, batches := [[]], operations := 0 } := by
  decide

/-- **C4, amended.**  Constructing with an explicitly supplied
non-positive limit does not fail: the constructor accepts the value,
stores it unchanged (any value below `BATCH_LIMIT = 500` is kept, with
no `ConfigurationError` and no clamping from below), and initialises the
aggregator normally. -/
theorem nonpositive_limit_stored (l : Int) (h : l ≤ 0) :
    newMultiBatch l = { limit := l, batches := [[]], operations := 0 } :=
  newMultiBatch_nonpos l h

/-- Witness for the amended C4 at desired limit `-3`. -/
theorem nonpositive_limit_stored_witness :
    newMultiBatch (-3) = { limit := -3, batches := [[]], operations := 0 } :=
  nonpositive_limit_stored (-3) (by decide)

/-- **C5.**  When every underlying handle's commit succeeds, `commit`
resolves successfully and the aggregator is reset to exactly one fresh
handle from the connection (`[[]]`) with `operations = 0` (the limit is
kept), immediately reusable without reconstruction. -/
theorem commit_success_resets {E R : Type} (o : List Op → Except E (List R))
    (st : MultiBatch) (h : ∀ b ∈ st.batches, isSuccess (o b) = true) :
    MultiBatch.commit o st
      = (Except.ok none, { limit := st.limit, batches := [[]], operations := 0 }) := by
  obtain ⟨rs, hrs⟩ := promiseAll_ok_of_all (st.batches.map o)
    (by
      intro x hx
      obtain ⟨b, hb, rfl⟩ := List.mem_map.mp hx
      exact h b hb)
  rw [MultiBatch.commit, hrs]

/-- Witness for C5: two fully staged handles, both commits succeed. -/
theorem commit_success_resets_witness :
    MultiBatch.commit allOk ⟨2, [[Op.del 0, Op.del 1], [Op.del 2]], 1⟩
      = (Except.ok none, ⟨2, [[]], 0⟩) :=
  commit_success_resets allOk
    ⟨2, [[Op.del 0, Op.del 1], [Op.del 2]], 1⟩ (by decide)

/-- **C6.**  If any underlying handle's commit fails, `commit` reports
failure (it rejects with some reason) and leaves `batches` and
`operations` exactly as they were — no reset — so the caller can inspect
the state or re-issue `commit`. -/
theorem commit_failure_preserves_state {E R : Type}
    (o : List Op → Except E (List R)) (st : MultiBatch)
    (h : ∃ b ∈ st.batches, isSuccess (o b) = false) :
    (∃ e, (MultiBatch.commit o st).1 = Except.error e)
    ∧ (MultiBatch.commit o st).2 = st := by
  obtain ⟨e, he⟩ := promiseAll_error_of_mem (st.batches.map o)
    (by
      obtain ⟨b, hb, hbf⟩ := h
      exact ⟨o b, List.mem_map_of_mem o hb, hbf⟩)
  rw [MultiBatch.commit, he]
  exact ⟨⟨e, rfl⟩, rfl⟩

/-- Witness for C6: the second handle fails, the state is unchanged. -/
theorem commit_failure_preserves_state_witness :
    (MultiBatch.commit
        (fun b => if b = [] then Except.error 3 else Except.ok ([] : List Nat))
        ⟨2, [[Op.del 0], []], 0⟩).2
      = ⟨2, [[Op.del 0], []], 0⟩ :=
  (commit_failure_preserves_state
    (fun b => if b = [] then Except.error 3 else Except.ok ([] : List Nat))
    ⟨2, [[Op.del 0], []], 0⟩ (by decide)).2

/-- **C7.**  When the second of three underlying handle commits fails
(the others succeed), the overall commit reports failure — never success
— and the surfaced rejection reason is exactly the failing handle's own
error, so the failure carries the detail the underlying layer attached
to that handle; the state is kept for diagnosis. -/
theorem commit_failure_identifies_handle {E R : Type}
    (o : List Op → Except E (List R)) (st : MultiBatch)
    (b1 b2 b3 : List Op) (r1 r3 : List R) (e : E)
    (hb : st.batches = [b1, b2, b3])
    (h1 : o b1 = Except.ok r1) (h2 : o b2 = Except.error e)
    (h3 : o b3 = Except.ok r3) :
    MultiBatch.commit o st = (Except.error e, st) := by
  rw [MultiBatch.commit, hb]
  simp only [List.map_cons, List.map_nil, h1, h2, h3]
  rfl

/-- Witness for C7: three handles, the second rejects with reason 9. -/
theorem commit_failure_identifies_handle_witness :
    MultiBatch.commit
        (fun b => if b = [Op.del 1] then Except.error 9 else Except.ok ([] : List Nat))
        ⟨500, [[Op.del 0], [Op.del 1], [Op.del 2]], 3⟩
      = (Except.error 9, ⟨500, [[Op.del 0], [Op.del 1], [Op.del 2]], 3⟩) :=
  commit_failure_identifies_handle
    (fun b => if b = [Op.del 1] then Except.error 9 else Except.ok ([] : List Nat))
    ⟨500, [[Op.del 0], [Op.del 1], [Op.del 2]], 3⟩
    [Op.del 0] [Op.del 1] [Op.del 2] [] [] 9 rfl rfl rfl rfl

/-- **C8.**  A `set` call without an options argument stages the
two-argument underlying form `Op.set ref data` (it forwards no options
value at all), a `set` call with explicit options stages the
three-argument form `Op.setWith ref data o`, and the two forms are
distinguishable for every options value — in particular from an empty
options object. -/
theorem set_option_forwarding (st : MultiBatch) (h : st.batches ≠ [])
    (ref data : Nat) :
    lastStaged (st.set ref data none) = some (Op.set ref data)
    ∧ (∀ o : Nat, lastStaged (st.set ref data (some o)) = some (Op.setWith ref data o))
    ∧ (∀ o : Nat, Op.set ref data ≠ Op.setWith ref data o) := by
  refine ⟨?_, ?_, ?_⟩
  · show lastStaged (st.stage (Op.set ref data)) = some (Op.set ref data)
    exact lastStaged_stage st h _
  · intro o
    show lastStaged (st.stage (Op.setWith ref data o)) = some (Op.setWith ref data o)
    exact lastStaged_stage st h _
  · intro o hc
    exact Op.noConfusion hc

/-- Witness for C8: on a fresh aggregator, `set 4 5` without options
stages the optionless form. -/
theorem set_option_forwarding_witness :
    lastStaged (MultiBatch.set (newMultiBatch 500) 4 5 none) = some (Op.set 4 5) :=
  (set_option_forwarding (newMultiBatch 500) (by decide) 4 5).1

/-- **C9, counterexample.**  With accepted limit 0, after one enqueue it
is not true that each handle holds exactly one operation: the handle
created at construction has received zero operations (the first enqueue
already rolls over into a fresh handle, leaving the initial one empty
forever). -/
theorem unit_batches_counterexample :
    ¬ ∀ b ∈ (MultiBatch.delete (newMultiBatch 0) 7).batches, b.length = 1 := by
  decide

/-- **C9, amended.**  With a stored non-positive limit, every enqueue
allocates a fresh handle that receives exactly that one operation and
the counter `operations` equals 1 after every delete/set/update call;
every handle except the initial one (which remains empty) holds exactly
one operation. -/
theorem nonpositive_limit_unit_batches (l : Int) (hl : l ≤ 0) (reqs : List Req) :
    (run (newMultiBatch l) reqs).batches = [] :: reqs.map (fun r => [toOp r])
    ∧ (run (newMultiBatch l) reqs).operations = (if reqs = [] then 0 else 1)
    ∧ ∀ (st : MultiBatch) (r : Req), st.limit ≤ 0 → (applyReq st r).operations = 1 := by
  refine ⟨?_, ?_, ?_⟩
  · rw [run_nonpos l hl]
  · rw [run_nonpos l hl]
  · intro st r h
    rw [nonpos_step st r h]

/-- Witness for the amended C9: limit 0, one delete, the initial handle
is empty and the new handle holds exactly the one operation. -/
theorem nonpositive_limit_unit_batches_witness :
    (run (newMultiBatch 0) [Req.rdel 7]).batches
      = [] :: [Req.rdel 7].map (fun r => [toOp r]) :=
  (nonpositive_limit_unit_batches 0 (by decide) [Req.rdel 7]).1

/-- **C10.**  On success `commit` always resolves with `undefined`
(`Except.ok none`): the per-handle write-result lists computed by
`Promise.all` are discarded and are never returned to the caller, even
though the declared result type `Promise<void | WriteResult[][]>` admits
them (`Except.ok (some rs)` is never produced). -/
theorem commit_discards_results {E R : Type} (o : List Op → Except E (List R))
    (st : MultiBatch) (h : ∀ b ∈ st.batches, isSuccess (o b) = true) :
    (MultiBatch.commit o st).1 = Except.ok none
    ∧ ∀ rs : List (List R), (MultiBatch.commit o st).1 ≠ Except.ok (some rs) := by
  obtain ⟨rs0, hrs⟩ := promiseAll_ok_of_all (st.batches.map o)
    (by
      intro x hx
      obtain ⟨b, hb, rfl⟩ := List.mem_map.mp hx
      exact h b hb)
  rw [MultiBatch.commit, hrs]
  refine ⟨rfl, ?_⟩
  intro rs hc
  simp at hc

/-- Witness for C10: a handle whose commit yields a non-empty result
list; the resolved value is still `none`. -/
theorem commit_discards_results_witness :
    (MultiBatch.commit allOkRes ⟨500, [[Op.set 1 2]], 1⟩).1 = Except.ok none :=
  (commit_discards_results allOkRes ⟨500, [[Op.set 1 2]], 1⟩ (by decide)).1

end FirestoreMultiBatch
